import Mathlib

/-!
Shallow embedding of the socket.io-redis adapter (src/index.js) and proofs
of the specified properties.

JavaScript objects used as string-keyed maps are embedded as association
lists `List (String × α)`; the keys of an object created and mutated only
through `setS`/`eraseS` stay unique, and insertion of a fresh key appends
(matching V8 string-key enumeration order, which `Object.keys`/`forEach`
observe).  Sets of keys whose values are `true` (room member sets, the
room set of a sid) are embedded as duplicate-free `List String` in
insertion order.  The msgpack codec is embedded as the injective inductive
`Wire` (encoding then decoding is the identity, and each channel kind only
ever carries its own constructor on the wire).
-/

set_option maxHeartbeats 1000000

namespace SocketIORedis

/-! ## Association-list maps (JS objects) -/

/-- `m[k]`: first value bound to key `k`, if any. -/
def lookupS {α : Type} : List (String × α) → String → Option α
  | [], _ => none
  | (k1, v) :: r, k => if k1 = k then some v else lookupS r k

/-- `m[k] = v`: replace the binding of `k` in place, or append a fresh one. -/
def setS {α : Type} : List (String × α) → String → α → List (String × α)
  | [], k, v => [(k, v)]
  | (k1, v1) :: r, k, v => if k1 = k then (k, v) :: r else (k1, v1) :: setS r k v

/-- `delete m[k]`: drop the first binding of `k`. -/
def eraseS {α : Type} : List (String × α) → String → List (String × α)
  | [], _ => []
  | (k1, v1) :: r, k => if k1 = k then r else (k1, v1) :: eraseS r k

/-- Keys of the object, in enumeration order (`Object.keys`). -/
def keysOf {α : Type} (m : List (String × α)) : List String := m.map Prod.fst

/-- `obj[x] = true` on a set-like object: append `x` if it is not present. -/
def addMem (l : List String) (x : String) : List String :=
  if x ∈ l then l else l ++ [x]

/-- `delete obj[x]` on a set-like object: drop the first occurrence of `x`. -/
def removeMem : List String → String → List String
  | [], _ => []
  | y :: r, x => if y = x then r else y :: removeMem r x

/-! ## Channel names (src/index.js lines 79, 83, 110, 149, 154, 177, 208, 245, 299) -/

/-- Namespace channel `{prefix}#{nsp}#`. -/
def nspChan (pfx nsp : String) : String := pfx ++ "#" ++ nsp ++ "#"

/-- Room channel `{prefix}#{nsp}#{room}#`. -/
def roomChan (pfx nsp room : String) : String := pfx ++ "#" ++ nsp ++ "#" ++ room ++ "#"

/-- Clients-request channel `{prefix}#clientrequest`. -/
def creqChan (pfx : String) : String := pfx ++ "#clientrequest"

/-- Clients-response channel `{prefix}#{muid}#clientresponse`. -/
def crespChan (pfx muid : String) : String := pfx ++ "#" ++ muid ++ "#clientresponse"

/-! ## JS `channel.split('#')` and the slice accesses used by the handlers -/

/-- `split` on a separator character, on the underlying character list.
`splitChars sep cs` is never empty. -/
def splitChars (sep : Char) : List Char → List (List Char)
  | [] => [[]]
  | c :: r =>
    match splitChars sep r with
    | [] => [[]]
    | p :: ps => if c = sep then [] :: p :: ps else (c :: p) :: ps

/-- JS `channel.split('#')`. -/
def jsSplit (s : String) : List String := (splitChars '#' s.data).map String.mk

/-- JS `pieces.slice(-1)[0]`: the last element. -/
def lastPiece (l : List String) : Option String := l.getLast?

/-- JS `pieces.slice(-2)[0]`: the second-to-last element when the array has at
least two elements, otherwise the first element of the whole array. -/
def sliceNeg2Head (l : List String) : Option String :=
  if 2 ≤ l.length then l.get? (l.length - 2) else l.head?

/-! ## Packets, options, wire messages -/

/-- A packet: the recognized `nsp` attribute (absent = `undefined`) plus an
opaque application payload. -/
structure Packet where
  nsp : Option String
  payload : String
deriving DecidableEq, Repr

/-- Broadcast options.  Only `rooms` steers control flow in the adapter;
`except`/`flags` are opaque pass-through and are elided.  `none` embeds a
falsy `opts.rooms` (absent/undefined), `some rs` a present array `rs`. -/
structure BOpts where
  rooms : Option (List String)
deriving DecidableEq, Repr

/-- JS string coercion of `packet.nsp` as used in channel concatenation:
an absent attribute concatenates as the string `"undefined"`. -/
def pktNsp (p : Packet) : String := p.nsp.getD "undefined"

/-- A decoded msgpack payload.  Each publish site of src/index.js uses
exactly one shape: `[uid, packet, opts]` (broadcast, line 150),
`[nsp, uid, muid, rooms]` (clients request, line 286),
`[sids]` (clients response, line 274). -/
inductive Wire where
  | bcast (sender : String) (packet : Option Packet) (opts : BOpts)
  | creq (nsp sender muid : String) (rooms : List String)
  | cresp (sids : List String)
deriving DecidableEq, Repr

/-- The first element of the decoded array (`args.shift()` at lines 108/117). -/
def leading : Wire → Option String
  | .bcast sender _ _ => some sender
  | .creq nsp _ _ _ => some nsp
  | .cresp _ => none

/-! ## broadcast (src/index.js lines 144-159) -/

/-- Effects of one `broadcast` call: the delegated local emit (line 145) and
the ordered list of bus publishes. -/
structure BcastResult where
  localEmits : List (Packet × BOpts)
  publishes : List (String × Wire)
deriving DecidableEq, Repr

/-- `Redis.prototype.broadcast(packet, opts, remote)`.  The local broadcast is
always delegated to the base adapter first; publishing happens only when
`remote` is false, guarded by the JS truthiness of `opts.rooms` (an empty
array is truthy and is iterated with `forEach`). -/
def broadcast (pfx uid : String) (packet : Packet) (opts : BOpts) (remote : Bool) :
    BcastResult :=
  { localEmits := [(packet, opts)]
    publishes :=
      if remote then []
      else
        match opts.rooms with
        | some rs =>
            rs.map fun room =>
              (roomChan pfx (pktNsp packet) room, Wire.bcast uid (some packet) opts)
        | none => [(nspChan pfx (pktNsp packet), Wire.bcast uid (some packet) opts)] }

/-! ## onmessage (src/index.js lines 102-133) -/

/-- A handler invocation made by `onmessage`: either
`this.clients(rooms, fn, channel, remote)` (line 111, with `fn = null`) or
`this.broadcast(packet, opts, remote)` (line 131). -/
inductive Action where
  | clientsCall (rooms : List String) (fnPresent : Bool) (channel : String) (remote : Bool)
  | broadcastCall (packet : Packet) (opts : BOpts) (remote : Bool)
deriving DecidableEq, Repr

/-- Line 106: `pieces.slice(-1)[0] == "clientrequest"`. -/
def isCreqChannel (channel : String) : Bool :=
  lastPiece (jsSplit channel) = some "clientrequest"

/-- Lines 121-123: default an absent `nsp` attribute to `"/"`. -/
def defaultNsp (p : Packet) : Packet :=
  if p.nsp = none then { p with nsp := some "/" } else p

/-- `Redis.prototype.onmessage(channel, msg)`, returning the handler
invocations it performs (a debug-logged drop performs none).  A payload of
the wrong shape for its channel kind never occurs on the wire; it is embedded
as a drop, which agrees with the source on every case reachable in the
system (the first shifted field then fails the uid, namespace or packet
guard). -/
def onmessage (pfx uid nspName : String) (channel : String) (w : Wire) : List Action :=
  if isCreqChannel channel then
    match w with
    | .creq n u m rs =>
        if nspName ≠ n then []
        else if uid = u then []
        else [.clientsCall rs false (crespChan pfx m) true]
    | _ => []
  else
    match w with
    | .bcast sender pkt opts =>
        if uid = sender then []
        else
          match pkt with
          | none => []
          | some p =>
              let p1 := defaultNsp p
              if p1.nsp ≠ some nspName then []
              else [.broadcastCall p1 opts true]
    | _ => []

/-! ## Membership state and the room-membership operations
(src/index.js lines 70-88, 170-262) -/

/-- Per-facade observable state: the base adapter's `sids` / `rooms` objects
(sid → set of rooms, room → set of sids) and the set of channels currently
subscribed on the shared subscriber client (Redis subscriptions are a set:
re-subscribing is idempotent, unsubscribing removes). -/
structure AState where
  sids : List (String × List String)
  rooms : List (String × List String)
  subs : List String
deriving DecidableEq, Repr

/-- A command issued to the subscriber bus client. -/
inductive BusCmd where
  | sub (channel : String)
  | unsub (channel : String)
deriving DecidableEq, Repr

/-- `SUBSCRIBE` applied to the subscription set. -/
def subAdd (s : List String) (c : String) : List String :=
  if c ∈ s then s else s ++ [c]

/-- `UNSUBSCRIBE` applied to the subscription set. -/
def subRemove (s : List String) (c : String) : List String := removeMem s c

/-- State on construction (lines 70-88): empty maps, namespace channel and
clients-request channel subscribed. -/
def initState (pfx nsp : String) : AState :=
  { sids := [], rooms := [],
    subs := subAdd (subAdd [] (nspChan pfx nsp)) (creqChan pfx) }

/-- Result of one `add`/`del` call: the new state, the bus commands issued
(in order), and the values the callback receives, with `none` for
`fn(null)` and `some e` for `fn(e)` (recorded whether or not a callback was
actually supplied). -/
structure OpResult where
  state : AState
  cmds : List BusCmd
  fnCalls : List (Option String)
deriving DecidableEq, Repr

/-- `Redis.prototype.add(id, room, fn)` (lines 170-186).  `err` is the
outcome the bus reports for the issued subscribe. -/
def addOp (pfx nsp : String) (st : AState) (id room : String) (err : Option String) :
    OpResult :=
  let sids1 := setS st.sids id (addMem ((lookupS st.sids id).getD []) room)
  let rooms1 := setS st.rooms room (addMem ((lookupS st.rooms room).getD []) id)
  let ch := roomChan pfx nsp room
  { state := { sids := sids1, rooms := rooms1, subs := subAdd st.subs ch }
    cmds := [.sub ch]
    fnCalls := [err] }

/-- `Redis.prototype.del(id, room, fn)` (lines 197-220).  Note lines 201-202
create `sids[id]` and `rooms[room]` when absent before deleting from them,
so `del` on a room with no local members still finds an (empty) entry,
deletes it and issues an unsubscribe.  `err` is the outcome of the
unsubscribe when one is issued. -/
def delOp (pfx nsp : String) (st : AState) (id room : String) (err : Option String) :
    OpResult :=
  let sids1 := setS st.sids id (removeMem ((lookupS st.sids id).getD []) room)
  let rmems := removeMem ((lookupS st.rooms room).getD []) id
  let rooms1 := setS st.rooms room rmems
  let ch := roomChan pfx nsp room
  if rmems = [] then
    { state := { sids := sids1, rooms := eraseS rooms1 room, subs := subRemove st.subs ch }
      cmds := [.unsub ch]
      fnCalls := [err] }
  else
    { state := { sids := sids1, rooms := rooms1, subs := st.subs }
      cmds := []
      fnCalls := [none] }

/-- Result of a `delAll` call that did not throw. -/
structure DelAllRes where
  state : AState
  cmds : List BusCmd
  fnCalls : List (Option String)
  emitted : List String
deriving DecidableEq, Repr

/-- The synchronous sweep of `async.forEach` inside `delAll` (lines 238-252)
over the rooms of the departing sid, threading the `rooms` map and the
subscription set.  Returns the updated pair, the unsubscribes issued, the
`error` events emitted, and whether every callback called `next` (the
iterator swallows an unsubscribe error after emitting it, so a failure
means `next` is never called for that room).  `delete self.rooms[room][id]`
on an absent `self.rooms[room]` is the property access on `undefined`, a
thrown `TypeError`. -/
def goRooms (pfx nsp id : String) (unsubErr : String → Option String) :
    List String → List (String × List String) → List String →
    Except String (List (String × List String) × List String × List BusCmd ×
      List String × Bool)
  | [], rooms, subs => .ok (rooms, subs, [], [], true)
  | room :: rest, rooms, subs =>
    match lookupS rooms room with
    | none => .error "TypeError"
    | some m =>
        let m1 := removeMem m id
        let rooms1 := setS rooms room m1
        if m1 = [] then
          let ch := roomChan pfx nsp room
          match goRooms pfx nsp id unsubErr rest (eraseS rooms1 room) (subRemove subs ch) with
          | .error e => .error e
          | .ok (r2, s2, cs, em, ok) =>
              match unsubErr room with
              | some e => .ok (r2, s2, .unsub ch :: cs, e :: em, false)
              | none => .ok (r2, s2, .unsub ch :: cs, em, ok)
        else
          match goRooms pfx nsp id unsubErr rest rooms1 subs with
          | .error e => .error e
          | .ok (r2, s2, cs, em, ok) => .ok (r2, s2, cs, em, ok)

/-- `Redis.prototype.delAll(id, fn)` (lines 230-262).  `fnPresent` records
whether a callback was supplied; `unsubErr` gives the bus outcome of the
unsubscribe issued for each emptied room.  On the early-return path
(line 236) the source evaluates `fn.bind` before `process.nextTick`, which
throws a `TypeError` when `fn` is `undefined`.  The final `async.forEach`
callback runs only when every iterator called `next`, i.e. only when every
issued unsubscribe succeeded; only then is `sids[id]` deleted and `fn(null)`
called. -/
def delAllOp (pfx nsp : String) (st : AState) (id : String) (fnPresent : Bool)
    (unsubErr : String → Option String) : Except String DelAllRes :=
  match lookupS st.sids id with
  | none =>
      if fnPresent then .ok { state := st, cmds := [], fnCalls := [none], emitted := [] }
      else .error "TypeError"
  | some roomsOfId =>
      match goRooms pfx nsp id unsubErr roomsOfId st.rooms st.subs with
      | .error e => .error e
      | .ok (rooms2, subs2, cs, em, ok) =>
          if ok then
            .ok { state := { sids := eraseS st.sids id, rooms := rooms2, subs := subs2 }
                  cmds := cs, fnCalls := [none], emitted := em }
          else
            .ok { state := { sids := st.sids, rooms := rooms2, subs := subs2 }
                  cmds := cs, fnCalls := [], emitted := em }

instance {ε α : Type} [DecidableEq ε] [DecidableEq α] : DecidableEq (Except ε α) :=
  fun x y =>
    match x, y with
    | .error a, .error b =>
        if h : a = b then isTrue (congrArg Except.error h)
        else isFalse fun hc => h (Except.error.inj hc)
    | .ok a, .ok b =>
        if h : a = b then isTrue (congrArg Except.ok h)
        else isFalse fun hc => h (Except.ok.inj hc)
    | .error _, .ok _ => isFalse fun hc => Except.noConfusion hc
    | .ok _, .error _ => isFalse fun hc => Except.noConfusion hc

/-- States reachable from construction by the membership operations, with
issued bus commands taking effect at the bus (a `delAll` that throws has no
successor). -/
inductive Reachable (pfx nsp : String) : AState → Prop
  | init : Reachable pfx nsp (initState pfx nsp)
  | addR (st : AState) (id room : String) (err : Option String) :
      Reachable pfx nsp st → Reachable pfx nsp (addOp pfx nsp st id room err).state
  | delR (st : AState) (id room : String) (err : Option String) :
      Reachable pfx nsp st → Reachable pfx nsp (delOp pfx nsp st id room err).state
  | delAllR (st : AState) (id : String) (fp : Bool) (ue : String → Option String)
      (res : DelAllRes) :
      Reachable pfx nsp st → delAllOp pfx nsp st id fp ue = .ok res →
      Reachable pfx nsp res.state

/-- Well-formedness of the `rooms` map as maintained by the operations:
unique keys and no empty member set (empty rooms are always deleted on the
spot). -/
def RoomsWF (rooms : List (String × List String)) : Prop :=
  (keysOf rooms).Nodup ∧ ∀ r m, lookupS rooms r = some m → m ≠ []

/-- The room-channel subscription invariant: the `rooms` map is well formed,
the subscription set is duplicate-free, and a room channel is subscribed iff
the room has at least one local member. -/
def BusInv (pfx nsp : String) (rooms : List (String × List String))
    (subs : List String) : Prop :=
  RoomsWF rooms ∧ subs.Nodup ∧
    ∀ room, (roomChan pfx nsp room ∈ subs ↔
      ∃ m, lookupS rooms room = some m ∧ m ≠ [])

/-! ## clients: responder path (src/index.js lines 265-275, remote truthy) -/

/-- Effects of the responder branch of `Redis.prototype.clients` (line 274):
`localSids` is the sid list the base adapter's `clients` passes to the
callback.  The branch publishes the encoded `[sids]` once and does nothing
else — no subscribe, no timer, no callback (`fn` is `null` on this path). -/
structure RespondResult where
  publishes : List (String × Wire)
  subscribes : List String
  timersArmed : List Int
  fnCalls : List (Option String)
deriving DecidableEq, Repr

/-- The `remote` branch of `clients(rooms, fn, channel, remote)`. -/
def clientsRespond (localSids : List String) (channel : String) : RespondResult :=
  { publishes := [(channel, Wire.cresp localSids)]
    subscribes := []
    timersArmed := []
    fnCalls := [] }

/-! ## clients: fleet path (src/index.js lines 276-312) -/

/-- One event observed by an outstanding fleet query: a message delivered to
the subscriber client (with its decoded `response[0]` payload, only consulted
after the channel filter passes), or the expiry of the armed timer.  A trace
models one execution; the armed `setTimeout` appears as `timerFire`, a no-op
when the query already completed and ran `clearTimeout`. -/
inductive QEvent where
  | msg (channel : String) (payload : List String)
  | timerFire
deriving DecidableEq, Repr

/-- State of one outstanding fleet query. -/
structure QState where
  remaining : Int
  acc : List String
  listening : Bool
  timerOn : Bool
  armedDelay : Int
  calls : List (List String)
deriving DecidableEq, Repr

/-- Channel filter of `onclientresponsemessage` (lines 289-293): last
`#`-piece must be `"clientresponse"` and the second-to-last must be the
query id. -/
def respMatches (muid : String) (channel : String) : Bool :=
  lastPiece (jsSplit channel) = some "clientresponse" &&
    sliceNeg2Head (jsSplit channel) = some muid

/-- `finish()` (lines 305-309): remove the listener, clear the timer, call
`fn(null, sids)`. -/
def finishQ (q : QState) : QState :=
  { q with listening := false, timerOn := false, calls := q.calls ++ [q.acc] }

/-- One event against the query state: a delivered message runs
`onclientresponsemessage` only while the listener is attached; a matching
response appends its sids and decrements the counter, finishing at zero
(`--remaining || finish()`); the timer expiry runs `finish` unless it was
cleared. -/
def qStep (muid : String) (q : QState) : QEvent → QState
  | .msg channel payload =>
      if q.listening then
        if respMatches muid channel then
          let q1 := { q with acc := q.acc ++ payload, remaining := q.remaining - 1 }
          if q1.remaining = 0 then finishQ q1 else q1
        else q
      else q
  | .timerFire => if q.timerOn then finishQ q else q

/-- Run a trace of events. -/
def qRun (muid : String) (q : QState) (tr : List QEvent) : QState :=
  tr.foldl (qStep muid) q

/-- Query state right after setup (lines 276-311): accumulator seeded with
the local sids, `remaining = S - 1` where `S` is the `NUMSUB` count of the
clients-request channel, timer armed for `timeout * remaining`. -/
def qInit (timeout subCount : Nat) (localSids : List String) : QState :=
  { remaining := (subCount : Int) - 1
    acc := localSids
    listening := true
    timerOn := true
    armedDelay := (timeout : Int) * ((subCount : Int) - 1)
    calls := [] }

/-- The payload a trace event contributes to the accumulator: the decoded
`response[0]` of a message passing the channel filter. -/
def respPayload (muid : String) : QEvent → Option (List String)
  | .msg channel payload => if respMatches muid channel then some payload else none
  | .timerFire => none

/-- Invariant of a query that has not yet finished after the event prefix
`p`: no callback yet, listener attached, timer armed, and the accumulator
holds the local sids followed by every accepted response so far. -/
abbrev UnfinQ (muid : String) (localSids : List String) (p : List QEvent) (q : QState) :
    Prop :=
  q.calls = [] ∧ q.listening = true ∧ q.timerOn = true ∧
    q.acc = localSids ++ (p.filterMap (respPayload muid)).flatten

/-- Invariant of a finished query after the event prefix `p`: listener gone,
timer cleared, and the callback was invoked exactly once, with the local
sids followed by the responses accepted before some cut-off point of `p`. -/
abbrev FinQ (muid : String) (localSids : List String) (p : List QEvent) (q : QState) :
    Prop :=
  q.listening = false ∧ q.timerOn = false ∧
    ∃ n, n ≤ p.length ∧
      q.calls = [localSids ++ ((p.take n).filterMap (respPayload muid)).flatten]

/-! ## Lemmas on the association-list maps -/

@[simp] theorem lookupS_nil {α : Type} (k : String) :
    lookupS ([] : List (String × α)) k = none := rfl

@[simp] theorem lookupS_cons {α : Type} (k1 k : String) (v : α) (r : List (String × α)) :
    lookupS ((k1, v) :: r) k = if k1 = k then some v else lookupS r k := rfl

@[simp] theorem setS_nil {α : Type} (k : String) (v : α) :
    setS ([] : List (String × α)) k v = [(k, v)] := rfl

@[simp] theorem setS_cons {α : Type} (k1 k : String) (v1 v : α) (r : List (String × α)) :
    setS ((k1, v1) :: r) k v = if k1 = k then (k, v) :: r else (k1, v1) :: setS r k v := rfl

@[simp] theorem eraseS_nil {α : Type} (k : String) :
    eraseS ([] : List (String × α)) k = [] := rfl

@[simp] theorem eraseS_cons {α : Type} (k1 k : String) (v1 : α) (r : List (String × α)) :
    eraseS ((k1, v1) :: r) k = if k1 = k then r else (k1, v1) :: eraseS r k := rfl

@[simp] theorem keysOf_nil {α : Type} : keysOf ([] : List (String × α)) = [] := rfl

@[simp] theorem keysOf_cons {α : Type} (k1 : String) (v1 : α) (r : List (String × α)) :
    keysOf ((k1, v1) :: r) = k1 :: keysOf r := rfl

@[simp] theorem keysOf_append {α : Type} (m l : List (String × α)) :
    keysOf (m ++ l) = keysOf m ++ keysOf l := by
  simp [keysOf]

@[simp] theorem removeMem_nil (x : String) : removeMem [] x = [] := rfl

@[simp] theorem removeMem_cons (y x : String) (r : List String) :
    removeMem (y :: r) x = if y = x then r else y :: removeMem r x := rfl

theorem lookupS_setS_self {α : Type} (m : List (String × α)) (k : String) (v : α) :
    lookupS (setS m k v) k = some v := by
  induction m with
  | nil => simp
  | cons hd t ih =>
      obtain ⟨k1, v1⟩ := hd
      by_cases hk : k1 = k
      · simp [hk]
      · simp [hk, ih]

theorem lookupS_setS_ne {α : Type} (m : List (String × α)) (k k1 : String) (v : α)
    (h : k1 ≠ k) : lookupS (setS m k v) k1 = lookupS m k1 := by
  induction m with
  | nil => simp [Ne.symm h]
  | cons hd t ih =>
      obtain ⟨k2, v2⟩ := hd
      by_cases hk : k2 = k
      · subst hk
        simp [Ne.symm h]
      · simp [hk, ih]

theorem setS_setS {α : Type} (m : List (String × α)) (k : String) (v w : α) :
    setS (setS m k v) k w = setS m k w := by
  induction m with
  | nil => simp
  | cons hd t ih =>
      obtain ⟨k1, v1⟩ := hd
      by_cases hk : k1 = k
      · simp [hk]
      · simp [hk, ih]

theorem setS_self {α : Type} (m : List (String × α)) (k : String) (v : α)
    (h : lookupS m k = some v) : setS m k v = m := by
  induction m with
  | nil => simp at h
  | cons hd t ih =>
      obtain ⟨k1, v1⟩ := hd
      by_cases hk : k1 = k
      · subst hk
        simp at h
        simp [h]
      · simp [hk] at h
        simp [hk, ih h]

theorem setS_of_none {α : Type} (m : List (String × α)) (k : String) (v : α)
    (h : lookupS m k = none) : setS m k v = m ++ [(k, v)] := by
  induction m with
  | nil => simp
  | cons hd t ih =>
      obtain ⟨k1, v1⟩ := hd
      by_cases hk : k1 = k
      · simp [hk] at h
      · simp [hk] at h
        simp [hk, ih h]

theorem eraseS_setS {α : Type} (m : List (String × α)) (k : String) (v : α) :
    eraseS (setS m k v) k = eraseS m k := by
  induction m with
  | nil => simp
  | cons hd t ih =>
      obtain ⟨k1, v1⟩ := hd
      by_cases hk : k1 = k
      · simp [hk]
      · simp [hk, ih]

theorem eraseS_append_of_none {α : Type} (m : List (String × α)) (k : String) (v : α)
    (h : lookupS m k = none) : eraseS (m ++ [(k, v)]) k = m := by
  induction m with
  | nil => simp
  | cons hd t ih =>
      obtain ⟨k1, v1⟩ := hd
      by_cases hk : k1 = k
      · simp [hk] at h
      · simp [hk] at h
        simp [hk, ih h]

theorem lookupS_append_of_none {α : Type} (m l : List (String × α)) (k : String)
    (h : lookupS m k = none) : lookupS (m ++ l) k = lookupS l k := by
  induction m with
  | nil => simp
  | cons hd t ih =>
      obtain ⟨k1, v1⟩ := hd
      by_cases hk : k1 = k
      · simp [hk] at h
      · simp [hk] at h
        simp [hk, ih h]

theorem lookupS_eraseS_ne {α : Type} (m : List (String × α)) (k k1 : String)
    (h : k1 ≠ k) : lookupS (eraseS m k) k1 = lookupS m k1 := by
  induction m with
  | nil => simp
  | cons hd t ih =>
      obtain ⟨k2, v2⟩ := hd
      by_cases hk : k2 = k
      · subst hk
        simp [Ne.symm h]
      · simp [hk, ih]

theorem lookupS_none_of_not_mem_keys {α : Type} (m : List (String × α)) (k : String)
    (h : k ∉ keysOf m) : lookupS m k = none := by
  induction m with
  | nil => simp
  | cons hd t ih =>
      obtain ⟨k1, v1⟩ := hd
      simp at h
      have hk : ¬ k1 = k := fun hc => h.1 hc.symm
      simp [hk, ih h.2]

theorem not_mem_keysOf_eraseS {α : Type} (m : List (String × α)) (k : String)
    (h : (keysOf m).Nodup) : k ∉ keysOf (eraseS m k) := by
  induction m with
  | nil => simp
  | cons hd t ih =>
      obtain ⟨k1, v1⟩ := hd
      simp at h
      by_cases hk : k1 = k
      · subst hk
        simpa using h.1
      · simp [hk]
        exact ⟨fun hc => hk hc.symm, ih h.2⟩

theorem lookupS_eraseS_self {α : Type} (m : List (String × α)) (k : String)
    (h : (keysOf m).Nodup) : lookupS (eraseS m k) k = none :=
  lookupS_none_of_not_mem_keys _ _ (not_mem_keysOf_eraseS m k h)

theorem keysOf_setS_mem {α : Type} (m : List (String × α)) (k : String) (v : α)
    (h : k ∈ keysOf m) : keysOf (setS m k v) = keysOf m := by
  induction m with
  | nil => simp at h
  | cons hd t ih =>
      obtain ⟨k1, v1⟩ := hd
      by_cases hk : k1 = k
      · simp [hk]
      · have h2 : k ∈ keysOf t := by
          rcases List.mem_cons.mp h with h1 | h1
          · exact absurd h1.symm hk
          · exact h1
        simp [hk, ih h2]

theorem keysOf_setS_not_mem {α : Type} (m : List (String × α)) (k : String) (v : α)
    (h : k ∉ keysOf m) : keysOf (setS m k v) = keysOf m ++ [k] := by
  induction m with
  | nil => simp
  | cons hd t ih =>
      obtain ⟨k1, v1⟩ := hd
      simp at h
      have hk : ¬ k1 = k := fun hc => h.1 hc.symm
      simp [hk, ih h.2]

theorem nodup_keysOf_setS {α : Type} (m : List (String × α)) (k : String) (v : α)
    (h : (keysOf m).Nodup) : (keysOf (setS m k v)).Nodup := by
  by_cases hk : k ∈ keysOf m
  · rw [keysOf_setS_mem m k v hk]; exact h
  · rw [keysOf_setS_not_mem m k v hk]
    simp [List.nodup_append, h, hk]

theorem eraseS_sublist {α : Type} (m : List (String × α)) (k : String) :
    List.Sublist (eraseS m k) m := by
  induction m with
  | nil => simp
  | cons hd t ih =>
      obtain ⟨k1, v1⟩ := hd
      by_cases hk : k1 = k
      · rw [eraseS_cons, if_pos hk]
        exact List.sublist_cons_self _ _
      · rw [eraseS_cons, if_neg hk]
        exact List.Sublist.cons₂ _ ih

theorem nodup_keysOf_eraseS {α : Type} (m : List (String × α)) (k : String)
    (h : (keysOf m).Nodup) : (keysOf (eraseS m k)).Nodup :=
  List.Nodup.sublist ((eraseS_sublist m k).map Prod.fst) h

/-! ## Lemmas on member lists and the subscription set -/

theorem mem_addMem (l : List String) (x a : String) :
    a ∈ addMem l x ↔ a ∈ l ∨ a = x := by
  unfold addMem
  by_cases hx : x ∈ l
  · rw [if_pos hx]
    constructor
    · exact fun h => Or.inl h
    · rintro (h | rfl)
      · exact h
      · exact hx
  · rw [if_neg hx]
    simp

theorem addMem_ne_nil (l : List String) (x : String) : addMem l x ≠ [] := by
  unfold addMem
  by_cases hx : x ∈ l
  · rw [if_pos hx]
    rintro rfl
    simp at hx
  · rw [if_neg hx]
    simp

theorem addMem_of_not_mem (l : List String) (x : String) (h : x ∉ l) :
    addMem l x = l ++ [x] := by simp [addMem, h]

theorem removeMem_sublist (l : List String) (x : String) :
    List.Sublist (removeMem l x) l := by
  induction l with
  | nil => simp
  | cons hd t ih =>
      by_cases hx : hd = x
      · rw [removeMem_cons, if_pos hx]
        exact List.sublist_cons_self _ _
      · rw [removeMem_cons, if_neg hx]
        exact List.Sublist.cons₂ _ ih

theorem removeMem_of_not_mem (l : List String) (x : String) (h : x ∉ l) :
    removeMem l x = l := by
  induction l with
  | nil => simp
  | cons hd t ih =>
      simp at h
      have hx : ¬ hd = x := fun hc => h.1 hc.symm
      simp [hx, ih h.2]

theorem removeMem_append_self (l : List String) (x : String) (h : x ∉ l) :
    removeMem (l ++ [x]) x = l := by
  induction l with
  | nil => simp
  | cons hd t ih =>
      simp at h
      have hx : ¬ hd = x := fun hc => h.1 hc.symm
      simp [List.cons_append, hx, ih h.2]

theorem mem_removeMem_ne (l : List String) (x a : String) (h : a ≠ x) :
    a ∈ removeMem l x ↔ a ∈ l := by
  induction l with
  | nil => simp
  | cons hd t ih =>
      by_cases hx : hd = x
      · subst hx
        simp [h, ih]
      · simp [hx, ih]

theorem not_mem_removeMem (l : List String) (x : String) (h : l.Nodup) :
    x ∉ removeMem l x := by
  induction l with
  | nil => simp
  | cons hd t ih =>
      simp at h
      by_cases hx : hd = x
      · subst hx
        simpa using h.1
      · simp [hx]
        exact ⟨fun hc => hx hc.symm, ih h.2⟩

theorem notempty_of_removeMem_ne_nil (l : List String) (x : String)
    (h : removeMem l x ≠ []) : l ≠ [] := by
  intro hc
  subst hc
  simp at h

theorem mem_subAdd (s : List String) (c a : String) :
    a ∈ subAdd s c ↔ a ∈ s ∨ a = c := mem_addMem s c a

theorem nodup_subAdd (s : List String) (c : String) (h : s.Nodup) :
    (subAdd s c).Nodup := by
  unfold subAdd
  by_cases hc : c ∈ s
  · rw [if_pos hc]; exact h
  · rw [if_neg hc]
    simp [List.nodup_append, h, hc]

theorem nodup_subRemove (s : List String) (c : String) (h : s.Nodup) :
    (subRemove s c).Nodup := List.Nodup.sublist (removeMem_sublist s c) h

theorem subAdd_eq_addMem (s : List String) (c : String) : subAdd s c = addMem s c := rfl

/-! ## Lemmas on channel strings -/

theorem roomChan_data (pfx nsp room : String) :
    (roomChan pfx nsp room).data
      = pfx.data ++ '#' :: (nsp.data ++ '#' :: (room.data ++ ['#'])) := by
  simp [roomChan]

theorem nspChan_data (pfx nsp : String) :
    (nspChan pfx nsp).data = pfx.data ++ '#' :: (nsp.data ++ ['#']) := by
  simp [nspChan]

theorem creqChan_data (pfx : String) :
    (creqChan pfx).data = pfx.data ++ '#' :: "clientrequest".data := by
  simp [creqChan]

theorem roomChan_ne_nspChan (pfx nsp room : String) :
    roomChan pfx nsp room ≠ nspChan pfx nsp := by
  intro h
  have hd := congrArg String.data h
  rw [roomChan_data, nspChan_data] at hd
  have hl := congrArg List.length hd
  simp [List.length_append] at hl

theorem getLast_data_roomChan (pfx nsp room : String) :
    (roomChan pfx nsp room).data.getLast? = some '#' := by
  have : (roomChan pfx nsp room).data
      = (pfx.data ++ '#' :: (nsp.data ++ '#' :: room.data)) ++ ['#'] := by
    rw [roomChan_data]
    simp
  rw [this, List.getLast?_concat]

theorem getLast_data_creqChan (pfx : String) :
    (creqChan pfx).data.getLast? = some 't' := by
  rw [creqChan_data]
  have h1 : (pfx.data ++ '#' :: "clientrequest".data)
      = (pfx.data ++ '#' :: "clientreques".data) ++ ['t'] := by
    simp
  rw [h1, List.getLast?_concat]

theorem getLast_data_nspChan (pfx nsp : String) :
    (nspChan pfx nsp).data.getLast? = some '#' := by
  have : (nspChan pfx nsp).data = (pfx.data ++ '#' :: nsp.data) ++ ['#'] := by
    rw [nspChan_data]
    simp
  rw [this, List.getLast?_concat]

theorem roomChan_ne_creqChan (pfx nsp room pfx2 : String) :
    roomChan pfx nsp room ≠ creqChan pfx2 := by
  intro h
  have h1 : (roomChan pfx nsp room).data.getLast? = (creqChan pfx2).data.getLast? := by
    rw [h]
  rw [getLast_data_roomChan, getLast_data_creqChan] at h1
  exact absurd h1 (by decide)

theorem nspChan_ne_creqChan (pfx nsp pfx2 : String) :
    nspChan pfx nsp ≠ creqChan pfx2 := by
  intro h
  have h1 : (nspChan pfx nsp).data.getLast? = (creqChan pfx2).data.getLast? := by
    rw [h]
  rw [getLast_data_nspChan, getLast_data_creqChan] at h1
  exact absurd h1 (by decide)

theorem roomChan_inj (pfx nsp r1 r2 : String)
    (h : roomChan pfx nsp r1 = roomChan pfx nsp r2) : r1 = r2 := by
  have hd := congrArg String.data h
  rw [roomChan_data, roomChan_data] at hd
  have h1 := List.append_cancel_left hd
  have h2 := List.cons.inj h1
  have h3 := List.append_cancel_left h2.2
  have h4 := List.cons.inj h3
  have h5 : r1.data ++ ['#'] = r2.data ++ ['#'] := h4.2
  have h6 := List.append_cancel_right h5
  exact String.ext h6

/-! ## Lemmas on the JS split -/

@[simp] theorem splitChars_nil (sep : Char) : splitChars sep [] = [[]] := rfl

theorem splitChars_cons (sep c : Char) (r : List Char) :
    splitChars sep (c :: r)
      = match splitChars sep r with
        | [] => [[]]
        | p :: ps => if c = sep then [] :: p :: ps else (c :: p) :: ps := rfl

theorem splitChars_ne_nil (sep : Char) (cs : List Char) : splitChars sep cs ≠ [] := by
  cases cs with
  | nil => simp [splitChars]
  | cons c r =>
      unfold splitChars
      cases splitChars sep r with
      | nil => simp
      | cons p ps =>
          by_cases hc : c = sep <;> simp [hc]

theorem splitChars_append_sep (sep : Char) (xs ys : List Char) :
    splitChars sep (xs ++ sep :: ys) = splitChars sep xs ++ splitChars sep ys := by
  induction xs with
  | nil =>
      rw [List.nil_append, splitChars_cons]
      cases hys : splitChars sep ys with
      | nil => exact absurd hys (splitChars_ne_nil sep ys)
      | cons p ps => simp
  | cons c xs1 ih =>
      rw [List.cons_append, splitChars_cons, ih, splitChars_cons]
      cases h2 : splitChars sep xs1 with
      | nil => exact absurd h2 (splitChars_ne_nil sep xs1)
      | cons q qs => by_cases hc : c = sep <;> simp [hc]

theorem splitChars_of_not_mem (sep : Char) (cs : List Char) (h : sep ∉ cs) :
    splitChars sep cs = [cs] := by
  induction cs with
  | nil => rfl
  | cons c r ih =>
      simp at h
      rw [splitChars_cons, ih h.2]
      have hc : ¬ c = sep := fun hc => h.1 hc.symm
      simp [hc]

theorem jsSplit_data (s : String) :
    jsSplit s = (splitChars '#' s.data).map String.mk := rfl

/-- The split of `{pfx}#clientrequest` always ends with the piece
`clientrequest`, whatever the prefix contains. -/
theorem lastPiece_creqChan (pfx : String) :
    lastPiece (jsSplit (creqChan pfx)) = some "clientrequest" := by
  have hsplit : splitChars '#' (creqChan pfx).data
      = splitChars '#' pfx.data ++ ["clientrequest".data] := by
    rw [creqChan_data, splitChars_append_sep]
    rw [splitChars_of_not_mem '#' "clientrequest".data (by decide)]
  unfold lastPiece jsSplit
  rw [hsplit]
  rw [List.map_append]
  simp

theorem isCreqChannel_creqChan (pfx : String) : isCreqChannel (creqChan pfx) = true := by
  simp [isCreqChannel, lastPiece_creqChan]

/-! ## Claim theorems -/

/-- C1, counterexample: with `opts.rooms` present but empty, a non-remote
`broadcast` publishes nothing at all — not one message to the namespace
channel.  (`if (opts.rooms)` is true for an empty array and `forEach` then
publishes zero messages.) -/
theorem broadcast_empty_rooms_counterexample :
    (broadcast "socket.io" "u1" { nsp := some "/nsp", payload := "hi" }
      { rooms := some [] } false).publishes = [] := by decide

/-- C1, amended: a non-remote `broadcast` publishes once to the namespace
channel `{prefix}#{packet.nsp}#` when `opts.rooms` is absent (falsy), and
once per listed room to `{prefix}#{packet.nsp}#{room}#` when `opts.rooms` is
a present array — hence zero publishes when the present array is empty. -/
theorem broadcast_publish_targets (pfx uid : String) (p : Packet) (opts : BOpts) :
    (opts.rooms = none →
      (broadcast pfx uid p opts false).publishes
        = [(nspChan pfx (pktNsp p), Wire.bcast uid (some p) opts)])
    ∧ ∀ rs, opts.rooms = some rs →
        (broadcast pfx uid p opts false).publishes
          = rs.map fun room => (roomChan pfx (pktNsp p) room, Wire.bcast uid (some p) opts) := by
  constructor
  · intro h
    simp [broadcast, h]
  · intro rs h
    simp [broadcast, h]

/-- C1, witness for `broadcast_publish_targets` at concrete inputs. -/
theorem broadcast_publish_targets_witness :
    (broadcast "socket.io" "u1" { nsp := some "/nsp", payload := "hi" }
        { rooms := none } false).publishes
      = [(nspChan "socket.io" "/nsp", Wire.bcast "u1"
          (some { nsp := some "/nsp", payload := "hi" }) { rooms := none })]
    ∧ (broadcast "socket.io" "u1" { nsp := some "/nsp", payload := "hi" }
        { rooms := some ["room"] } false).publishes
      = [(roomChan "socket.io" "/nsp" "room", Wire.bcast "u1"
          (some { nsp := some "/nsp", payload := "hi" }) { rooms := some ["room"] })] :=
  ⟨(broadcast_publish_targets "socket.io" "u1"
      { nsp := some "/nsp", payload := "hi" } { rooms := none }).1 rfl,
   (broadcast_publish_targets "socket.io" "u1"
      { nsp := some "/nsp", payload := "hi" } { rooms := some ["room"] }).2 ["room"] rfl⟩

/-- C2: a remote `broadcast` delegates the local emit with `(packet, opts)`
and publishes nothing to any bus channel. -/
theorem broadcast_remote_local_only (pfx uid : String) (p : Packet) (opts : BOpts) :
    broadcast pfx uid p opts true = { localEmits := [(p, opts)], publishes := [] } := by
  simp [broadcast]

/-- C3: an inbound message whose decoded leading field equals the local uid
is dropped by `onmessage` with no handler invocation, on every channel kind.
The hypothesis `nspName ≠ uid` always holds in the system: namespace names
begin with `/` and the uid is drawn from an alphanumeric alphabet. -/
theorem onmessage_echo_suppression (pfx uid nspName : String)
    (hns : nspName ≠ uid) (channel : String) (w : Wire)
    (hw : leading w = some uid) :
    onmessage pfx uid nspName channel w = [] := by
  cases w with
  | cresp sids => simp [leading] at hw
  | creq n u m rs =>
      simp [leading] at hw
      subst hw
      by_cases hch : isCreqChannel channel <;> simp [onmessage, hch, hns]
  | bcast sender pkt opts =>
      simp [leading] at hw
      subst hw
      by_cases hch : isCreqChannel channel <;> simp [onmessage, hch]

/-- C3, witness for `onmessage_echo_suppression`. -/
theorem onmessage_echo_suppression_witness :
    onmessage "socket.io" "u1" "/nsp" "socket.io#/nsp#"
      (Wire.bcast "u1" (some { nsp := some "/nsp", payload := "x" }) { rooms := none }) = [] :=
  onmessage_echo_suppression "socket.io" "u1" "/nsp" (by decide) "socket.io#/nsp#"
    (Wire.bcast "u1" (some { nsp := some "/nsp", payload := "x" }) { rooms := none })
    (by decide)

/-- C5: an inbound broadcast message surviving echo suppression has an absent
`nsp` attribute defaulted to `"/"`; it is then dropped exactly when the
resulting namespace differs from this facade's, and otherwise dispatched to
`broadcast` with the remote flag true. -/
theorem onmessage_remote_broadcast_dispatch (pfx uid nspName channel sender : String)
    (p : Packet) (opts : BOpts)
    (hch : isCreqChannel channel = false) (hu : sender ≠ uid) :
    onmessage pfx uid nspName channel (Wire.bcast sender (some p) opts)
      = if p.nsp.getD "/" = nspName
          then [Action.broadcastCall { nsp := some (p.nsp.getD "/"), payload := p.payload } opts true]
          else [] := by
  obtain ⟨pn, pp⟩ := p
  cases pn with
  | none => simp [onmessage, hch, Ne.symm hu, defaultNsp]
  | some x => simp [onmessage, hch, Ne.symm hu, defaultNsp]

/-- C5, witness for `onmessage_remote_broadcast_dispatch`: a packet without
`nsp` arriving at the root-namespace facade is delivered with `nsp = "/"`,
and one with a foreign `nsp` is dropped. -/
theorem onmessage_remote_broadcast_dispatch_witness :
    onmessage "socket.io" "u1" "/" "socket.io#/#"
        (Wire.bcast "u2" (some { nsp := none, payload := "x" }) { rooms := none })
      = [Action.broadcastCall { nsp := some "/", payload := "x" } { rooms := none } true]
    ∧ onmessage "socket.io" "u1" "/nsp" "socket.io#/nsp#"
        (Wire.bcast "u2" (some { nsp := some "/other", payload := "x" }) { rooms := none })
      = [] := by
  constructor
  · rw [onmessage_remote_broadcast_dispatch "socket.io" "u1" "/" "socket.io#/#" "u2"
      { nsp := none, payload := "x" } { rooms := none } (by decide) (by decide)]
    decide
  · rw [onmessage_remote_broadcast_dispatch "socket.io" "u1" "/nsp" "socket.io#/nsp#" "u2"
      { nsp := some "/other", payload := "x" } { rooms := none } (by decide) (by decide)]
    decide

/-- C7: at a concrete state where `s1` is the sole member of `r1`, `delAll`
with every unsubscribe succeeding deletes `sids[s1]` and calls `fn(null)`;
with the unsubscribe failing, the iterator emits the error and returns
without calling `next`, so the final callback never runs: `fn` is never
invoked (neither with the error nor with `null`) and `sids[s1]` survives. -/
theorem delAll_unsub_error_no_callback :
    delAllOp "socket.io" "/nsp"
        { sids := [("s1", ["r1"])], rooms := [("r1", ["s1"])],
          subs := [roomChan "socket.io" "/nsp" "r1"] } "s1" true (fun _ => none)
      = .ok { state := { sids := [], rooms := [], subs := [] },
              cmds := [.unsub (roomChan "socket.io" "/nsp" "r1")],
              fnCalls := [none], emitted := [] }
    ∧ delAllOp "socket.io" "/nsp"
        { sids := [("s1", ["r1"])], rooms := [("r1", ["s1"])],
          subs := [roomChan "socket.io" "/nsp" "r1"] } "s1" true (fun _ => some "ECONN")
      = .ok { state := { sids := [("s1", ["r1"])], rooms := [], subs := [] },
              cmds := [.unsub (roomChan "socket.io" "/nsp" "r1")],
              fnCalls := [], emitted := ["ECONN"] } := by decide

/-- C8: an accepted clients request (matching namespace, foreign uid) makes
`onmessage` invoke `clients` exactly once with a null callback, the response
channel `{prefix}#{muid}#clientresponse` and the remote flag; the responder
branch then publishes the local sid list (possibly empty) exactly once to
that channel, arms no timer, subscribes to nothing and waits for nothing. -/
theorem clients_request_responder (pfx uid nspName reqUid muid : String)
    (rooms localSids : List String) (hu : uid ≠ reqUid) :
    onmessage pfx uid nspName (creqChan pfx) (Wire.creq nspName reqUid muid rooms)
      = [Action.clientsCall rooms false (crespChan pfx muid) true]
    ∧ clientsRespond localSids (crespChan pfx muid)
      = { publishes := [(crespChan pfx muid, Wire.cresp localSids)]
          subscribes := [], timersArmed := [], fnCalls := [] } := by
  constructor
  · simp [onmessage, isCreqChannel_creqChan, hu]
  · rfl

/-- C8, witness for `clients_request_responder`. -/
theorem clients_request_responder_witness :
    onmessage "socket.io" "u1" "/nsp" (creqChan "socket.io")
        (Wire.creq "/nsp" "u2" "m1" ["room"])
      = [Action.clientsCall ["room"] false (crespChan "socket.io" "m1") true]
    ∧ clientsRespond [] (crespChan "socket.io" "m1")
      = { publishes := [(crespChan "socket.io" "m1", Wire.cresp [])]
          subscribes := [], timersArmed := [], fnCalls := [] } :=
  clients_request_responder "socket.io" "u1" "/nsp" "u2" "m1" ["room"] [] (by decide)

/-- C10: when `sids[id]` is missing, the early-return path of `delAll`
evaluates `fn.bind` on the spot; without a callback this throws a
`TypeError` instead of completing silently, while with a callback the call
completes with `fn(null)` and no other effect — the callback is mandatory
on exactly this path. -/
theorem delAll_missing_sid_mandatory_callback (pfx nsp : String) (st : AState)
    (id : String) (ue : String → Option String) (h : lookupS st.sids id = none) :
    delAllOp pfx nsp st id false ue = .error "TypeError"
    ∧ delAllOp pfx nsp st id true ue
        = .ok { state := st, cmds := [], fnCalls := [none], emitted := [] } := by
  constructor <;> simp [delAllOp, h]

/-- C10, witness for `delAll_missing_sid_mandatory_callback`. -/
theorem delAll_missing_sid_mandatory_callback_witness :
    delAllOp "socket.io" "/nsp" { sids := [], rooms := [], subs := [] } "s1" false
        (fun _ => none) = .error "TypeError"
    ∧ delAllOp "socket.io" "/nsp" { sids := [], rooms := [], subs := [] } "s1" true
        (fun _ => none)
      = .ok { state := { sids := [], rooms := [], subs := [] }, cmds := [],
              fnCalls := [none], emitted := [] } :=
  delAll_missing_sid_mandatory_callback "socket.io" "/nsp"
    { sids := [], rooms := [], subs := [] } "s1" (fun _ => none) (by decide)

/-- C6, counterexample: from the freshly constructed state, `add(s, r)`
followed by `del(s, r)` does not restore the membership index — it leaves a
dangling empty entry `sids[s] = {}` (created by `add` and not removed by
`del`, which only deletes the room key inside it). -/
theorem add_del_not_roundtrip_counterexample :
    (delOp "socket.io" "/nsp"
        (addOp "socket.io" "/nsp" (initState "socket.io" "/nsp") "s" "r" none).state
        "s" "r" none).state
      ≠ initState "socket.io" "/nsp"
    ∧ (delOp "socket.io" "/nsp"
        (addOp "socket.io" "/nsp" (initState "socket.io" "/nsp") "s" "r" none).state
        "s" "r" none).state.sids = [("s", [])] := by decide

/-- C6, amended: `add(s, r); del(s, r)` restores `sids`, `rooms` and the bus
subscription set exactly, provided the pre-state already had an entry for
`s` in `sids` whose room set lacks `r`, room `r` was either absent or a
nonempty room not containing `s`, and the room channel was subscribed iff
the room entry existed.  (Without the `sids`-entry proviso the pair leaves
an empty `sids[s]` behind; with `s` already in `r` the pair removes it.) -/
theorem addOp_state (pfx nsp : String) (st : AState) (id room : String) (e : Option String) :
    (addOp pfx nsp st id room e).state
      = { sids := setS st.sids id (addMem ((lookupS st.sids id).getD []) room),
          rooms := setS st.rooms room (addMem ((lookupS st.rooms room).getD []) id),
          subs := subAdd st.subs (roomChan pfx nsp room) } := rfl

theorem add_del_roundtrip (pfx nsp : String) (st : AState) (s r : String)
    (e1 e2 : Option String) (sl : List String)
    (hs : lookupS st.sids s = some sl) (hr : r ∉ sl)
    (hroom : lookupS st.rooms r = none ∨
      ∃ m, lookupS st.rooms r = some m ∧ s ∉ m ∧ m ≠ [])
    (hsub : roomChan pfx nsp r ∈ st.subs ↔ (lookupS st.rooms r).isSome) :
    (delOp pfx nsp (addOp pfx nsp st s r e1).state s r e2).state = st := by
  have hgd : (lookupS st.sids s).getD [] = sl := by rw [hs]; rfl
  rcases hroom with hnone | ⟨m, hm, hsm, hmne⟩
  · have hnot : roomChan pfx nsp r ∉ st.subs := by
      intro hmem
      have h2 := hsub.mp hmem
      rw [hnone] at h2
      simp at h2
    have hgd2 : (lookupS st.rooms r).getD [] = [] := by rw [hnone]; rfl
    have haddm : addMem ([] : List String) s = [s] := by simp [addMem]
    have hsubadd : subAdd st.subs (roomChan pfx nsp r)
        = st.subs ++ [roomChan pfx nsp r] := by
      unfold subAdd
      rw [if_neg hnot]
    have h1 : (addOp pfx nsp st s r e1).state
        = { sids := setS st.sids s (sl ++ [r]),
            rooms := st.rooms ++ [(r, [s])],
            subs := st.subs ++ [roomChan pfx nsp r] } := by
      rw [addOp_state, hgd, addMem_of_not_mem sl r hr, hgd2, haddm,
        setS_of_none st.rooms r _ hnone, hsubadd]
    rw [h1]
    have hlr : lookupS (st.rooms ++ [(r, [s])]) r = some [s] := by
      rw [lookupS_append_of_none st.rooms _ r hnone]
      simp
    have hrm : removeMem ((lookupS (st.rooms ++ [(r, [s])]) r).getD []) s = [] := by
      rw [hlr]
      simp
    simp [delOp, hrm, eraseS_setS, eraseS_append_of_none st.rooms r _ hnone,
      removeMem_append_self st.subs _ hnot, lookupS_setS_self,
      removeMem_append_self sl r hr, setS_setS, setS_self st.sids s sl hs, subRemove]
  · have hin : roomChan pfx nsp r ∈ st.subs := hsub.mpr (by rw [hm]; rfl)
    have hgd2 : (lookupS st.rooms r).getD [] = m := by rw [hm]; rfl
    have hsubadd : subAdd st.subs (roomChan pfx nsp r) = st.subs := by
      unfold subAdd
      rw [if_pos hin]
    have h1 : (addOp pfx nsp st s r e1).state
        = { sids := setS st.sids s (sl ++ [r]),
            rooms := setS st.rooms r (m ++ [s]),
            subs := st.subs } := by
      rw [addOp_state, hgd, addMem_of_not_mem sl r hr, hgd2,
        addMem_of_not_mem m s hsm, hsubadd]
    rw [h1]
    simp [delOp, hmne, lookupS_setS_self, removeMem_append_self sl r hr,
      removeMem_append_self m s hsm,
      setS_setS, setS_self st.sids s sl hs, setS_self st.rooms r m hm]

/-- C6, witness for `add_del_roundtrip` at a concrete state with an existing
(empty) `sids` entry for `s`. -/
theorem add_del_roundtrip_witness :
    (delOp "socket.io" "/nsp"
        (addOp "socket.io" "/nsp"
          { sids := [("s", [])], rooms := [], subs := [] } "s" "r" none).state
        "s" "r" none).state
      = { sids := [("s", [])], rooms := [], subs := [] } :=
  add_del_roundtrip "socket.io" "/nsp"
    { sids := [("s", [])], rooms := [], subs := [] } "s" "r" none none []
    (by decide) (by decide) (Or.inl (by decide)) (by decide)

/-! ## The room-channel subscription invariant (C9) -/

theorem delOp_state_empty (pfx nsp : String) (st : AState) (id room : String)
    (e : Option String) (h : removeMem ((lookupS st.rooms room).getD []) id = []) :
    (delOp pfx nsp st id room e).state
      = { sids := setS st.sids id (removeMem ((lookupS st.sids id).getD []) room),
          rooms := eraseS st.rooms room,
          subs := subRemove st.subs (roomChan pfx nsp room) } := by
  simp [delOp, h, eraseS_setS]

theorem delOp_state_nonempty (pfx nsp : String) (st : AState) (id room : String)
    (e : Option String) (h : removeMem ((lookupS st.rooms room).getD []) id ≠ []) :
    (delOp pfx nsp st id room e).state
      = { sids := setS st.sids id (removeMem ((lookupS st.sids id).getD []) room),
          rooms := setS st.rooms room (removeMem ((lookupS st.rooms room).getD []) id),
          subs := st.subs } := by
  simp [delOp, h]

theorem delOp_cmds (pfx nsp : String) (st : AState) (id room : String)
    (e : Option String) :
    (delOp pfx nsp st id room e).cmds
      = if removeMem ((lookupS st.rooms room).getD []) id = []
          then [BusCmd.unsub (roomChan pfx nsp room)] else [] := by
  by_cases h : removeMem ((lookupS st.rooms room).getD []) id = [] <;> simp [delOp, h]

theorem businv_set_subAdd (pfx nsp : String) (rooms : List (String × List String))
    (subs : List String) (room : String) (v : List String) (hv : v ≠ [])
    (h : BusInv pfx nsp rooms subs) :
    BusInv pfx nsp (setS rooms room v) (subAdd subs (roomChan pfx nsp room)) := by
  obtain ⟨⟨hnodup, hne⟩, hsnodup, hiff⟩ := h
  refine ⟨⟨nodup_keysOf_setS rooms room v hnodup, ?_⟩,
    nodup_subAdd subs _ hsnodup, ?_⟩
  · intro r m hl
    by_cases hr : r = room
    · subst hr
      rw [lookupS_setS_self] at hl
      injection hl with hl
      exact hl ▸ hv
    · rw [lookupS_setS_ne rooms room r v hr] at hl
      exact hne r m hl
  · intro r
    by_cases hr : r = room
    · subst hr
      constructor
      · intro _
        exact ⟨v, lookupS_setS_self rooms r v, hv⟩
      · intro _
        exact (mem_subAdd subs _ _).mpr (Or.inr rfl)
    · have hch : roomChan pfx nsp r ≠ roomChan pfx nsp room :=
        fun hc => hr (roomChan_inj pfx nsp r room hc)
      rw [lookupS_setS_ne rooms room r v hr]
      constructor
      · intro hm
        rcases (mem_subAdd subs _ _).mp hm with h2 | h2
        · exact (hiff r).mp h2
        · exact absurd h2 hch
      · intro h2
        exact (mem_subAdd subs _ _).mpr (Or.inl ((hiff r).mpr h2))

theorem businv_erase (pfx nsp : String) (rooms : List (String × List String))
    (subs : List String) (room : String)
    (h : BusInv pfx nsp rooms subs) :
    BusInv pfx nsp (eraseS rooms room) (subRemove subs (roomChan pfx nsp room)) := by
  obtain ⟨⟨hnodup, hne⟩, hsnodup, hiff⟩ := h
  refine ⟨⟨nodup_keysOf_eraseS rooms room hnodup, ?_⟩,
    nodup_subRemove subs _ hsnodup, ?_⟩
  · intro r m hl
    by_cases hr : r = room
    · subst hr
      rw [lookupS_eraseS_self rooms r hnodup] at hl
      exact absurd hl (by simp)
    · rw [lookupS_eraseS_ne rooms room r hr] at hl
      exact hne r m hl
  · intro r
    by_cases hr : r = room
    · subst hr
      constructor
      · intro hm
        exact absurd hm (not_mem_removeMem subs _ hsnodup)
      · rintro ⟨m, hl, _⟩
        rw [lookupS_eraseS_self rooms r hnodup] at hl
        exact absurd hl (by simp)
    · have hch : roomChan pfx nsp r ≠ roomChan pfx nsp room :=
        fun hc => hr (roomChan_inj pfx nsp r room hc)
      unfold subRemove
      rw [lookupS_eraseS_ne rooms room r hr,
        mem_removeMem_ne subs _ _ hch]
      exact hiff r

theorem businv_set_nonempty (pfx nsp : String) (rooms : List (String × List String))
    (subs : List String) (room : String) (v : List String) (hv : v ≠ [])
    (hlk : ∃ m, lookupS rooms room = some m ∧ m ≠ [])
    (h : BusInv pfx nsp rooms subs) :
    BusInv pfx nsp (setS rooms room v) subs := by
  obtain ⟨⟨hnodup, hne⟩, hsnodup, hiff⟩ := h
  refine ⟨⟨nodup_keysOf_setS rooms room v hnodup, ?_⟩, hsnodup, ?_⟩
  · intro r m hl
    by_cases hr : r = room
    · subst hr
      rw [lookupS_setS_self] at hl
      injection hl with hl
      exact hl ▸ hv
    · rw [lookupS_setS_ne rooms room r v hr] at hl
      exact hne r m hl
  · intro r
    by_cases hr : r = room
    · subst hr
      constructor
      · intro _
        exact ⟨v, lookupS_setS_self rooms r v, hv⟩
      · intro _
        exact (hiff r).mpr hlk
    · rw [lookupS_setS_ne rooms room r v hr]
      exact hiff r

theorem businv_init (pfx nsp : String) :
    BusInv pfx nsp [] (initState pfx nsp).subs := by
  have hsubs : (initState pfx nsp).subs = [nspChan pfx nsp, creqChan pfx] := by
    simp [initState, subAdd, Ne.symm (nspChan_ne_creqChan pfx nsp pfx)]
  rw [hsubs]
  refine ⟨⟨by simp, ?_⟩, ?_, ?_⟩
  · intro r m hl
    simp at hl
  · simp [nspChan_ne_creqChan pfx nsp pfx]
  · intro room
    constructor
    · intro hm
      rcases List.mem_pair.mp hm with h2 | h2
      · exact absurd h2 (roomChan_ne_nspChan pfx nsp room)
      · exact absurd h2 (roomChan_ne_creqChan pfx nsp room pfx)
    · rintro ⟨m, hl, _⟩
      simp at hl

/-- A nonempty `removeMem` result forces a nonempty source entry. -/
theorem lookup_of_removeMem_ne_nil (rooms : List (String × List String))
    (room id : String)
    (h : removeMem ((lookupS rooms room).getD []) id ≠ []) :
    ∃ m, lookupS rooms room = some m ∧ m ≠ [] := by
  cases hl : lookupS rooms room with
  | none =>
      rw [hl] at h
      simp [removeMem] at h
  | some m =>
      rw [hl] at h
      refine ⟨m, rfl, ?_⟩
      intro hc
      subst hc
      simp [removeMem] at h

theorem businv_goRooms (pfx nsp id : String) (ue : String → Option String) :
    ∀ (rl : List String) (rooms : List (String × List String)) (subs : List String),
      BusInv pfx nsp rooms subs →
      ∀ out, goRooms pfx nsp id ue rl rooms subs = .ok out →
        BusInv pfx nsp out.1 out.2.1 := by
  intro rl
  induction rl with
  | nil =>
      intro rooms subs h out hok
      unfold goRooms at hok
      injection hok with h3
      rw [← h3]
      exact h
  | cons room rest ih =>
      intro rooms subs h out hok
      unfold goRooms at hok
      cases hl : lookupS rooms room with
      | none =>
          simp only [hl] at hok
          exact Except.noConfusion hok
      | some m =>
          simp only [hl] at hok
          by_cases hm1 : removeMem m id = []
          · rw [if_pos hm1] at hok
            cases hgo : goRooms pfx nsp id ue rest
                (eraseS (setS rooms room (removeMem m id)) room)
                (subRemove subs (roomChan pfx nsp room)) with
            | error e =>
                simp only [hgo] at hok
                exact Except.noConfusion hok
            | ok out2 =>
                obtain ⟨r2, s2, cs, em, okf⟩ := out2
                simp only [hgo] at hok
                have hbase : BusInv pfx nsp
                    (eraseS (setS rooms room (removeMem m id)) room)
                    (subRemove subs (roomChan pfx nsp room)) := by
                  rw [eraseS_setS]
                  exact businv_erase pfx nsp rooms subs room h
                have hinv2 : BusInv pfx nsp r2 s2 :=
                  ih _ _ hbase (r2, s2, cs, em, okf) hgo
                cases hue : ue room with
                | some e2 =>
                    simp only [hue] at hok
                    injection hok with h3
                    rw [← h3]
                    exact hinv2
                | none =>
                    simp only [hue] at hok
                    injection hok with h3
                    rw [← h3]
                    exact hinv2
          · rw [if_neg hm1] at hok
            cases hgo : goRooms pfx nsp id ue rest
                (setS rooms room (removeMem m id)) subs with
            | error e =>
                simp only [hgo] at hok
                exact Except.noConfusion hok
            | ok out2 =>
                obtain ⟨r2, s2, cs, em, okf⟩ := out2
                simp only [hgo] at hok
                have hne2 : m ≠ [] := by
                  intro hc
                  subst hc
                  simp [removeMem] at hm1
                have hbase : BusInv pfx nsp (setS rooms room (removeMem m id)) subs :=
                  businv_set_nonempty pfx nsp rooms subs room _ hm1 ⟨m, hl, hne2⟩ h
                have hinv2 : BusInv pfx nsp r2 s2 :=
                  ih _ _ hbase (r2, s2, cs, em, okf) hgo
                injection hok with h3
                rw [← h3]
                exact hinv2

theorem businv_delAll (pfx nsp : String) (st : AState) (id : String) (fp : Bool)
    (ue : String → Option String) (res : DelAllRes)
    (h : BusInv pfx nsp st.rooms st.subs)
    (hok : delAllOp pfx nsp st id fp ue = .ok res) :
    BusInv pfx nsp res.state.rooms res.state.subs := by
  unfold delAllOp at hok
  cases hsid : lookupS st.sids id with
  | none =>
      simp only [hsid] at hok
      cases fp with
      | true =>
          rw [if_pos rfl] at hok
          injection hok with h3
          rw [← h3]
          exact h
      | false =>
          rw [if_neg (by simp)] at hok
          exact Except.noConfusion hok
  | some rl =>
      simp only [hsid] at hok
      cases hgo : goRooms pfx nsp id ue rl st.rooms st.subs with
      | error e =>
          simp only [hgo] at hok
          exact Except.noConfusion hok
      | ok out =>
          obtain ⟨r2, s2, cs, em, okf⟩ := out
          simp only [hgo] at hok
          have hinv2 : BusInv pfx nsp r2 s2 :=
            businv_goRooms pfx nsp id ue rl st.rooms st.subs h
              (r2, s2, cs, em, okf) hgo
          cases okf with
          | true =>
              rw [if_pos rfl] at hok
              injection hok with h3
              rw [← h3]
              exact hinv2
          | false =>
              rw [if_neg (by simp)] at hok
              injection hok with h3
              rw [← h3]
              exact hinv2

theorem reachable_businv (pfx nsp : String) (st : AState)
    (h : Reachable pfx nsp st) : BusInv pfx nsp st.rooms st.subs := by
  induction h with
  | init => exact businv_init pfx nsp
  | addR st1 id room e _ ih =>
      rw [addOp_state]
      exact businv_set_subAdd pfx nsp st1.rooms st1.subs room _
        (addMem_ne_nil _ _) ih
  | delR st1 id room e _ ih =>
      by_cases hrm : removeMem ((lookupS st1.rooms room).getD []) id = []
      · rw [delOp_state_empty pfx nsp st1 id room e hrm]
        exact businv_erase pfx nsp st1.rooms st1.subs room ih
      · rw [delOp_state_nonempty pfx nsp st1 id room e hrm]
        exact businv_set_nonempty pfx nsp st1.rooms st1.subs room _ hrm
          (lookup_of_removeMem_ne_nil st1.rooms room id hrm) ih
  | delAllR st1 id fp ue res _ hok ih =>
      exact businv_delAll pfx nsp st1 id fp ue res ih hok

/-- C9, counterexample: `del` of a sid from a room with no local members
(here: any room, straight from the freshly constructed state) still issues
an unsubscribe for the room channel, although no member set became empty —
lines 201-208 create the missing `rooms[room]` entry, find it empty and
unsubscribe. -/
theorem del_unsub_without_member :
    (delOp "socket.io" "/nsp" (initState "socket.io" "/nsp") "s" "r" none).cmds
      = [BusCmd.unsub (roomChan "socket.io" "/nsp" "r")]
    ∧ lookupS (initState "socket.io" "/nsp").rooms "r" = none := by decide

/-- C9, amended: in every state reachable by `add`/`del`/`delAll` (with
issued bus commands taking effect), a room channel is subscribed iff at
least one local sid is in the room; `add` always issues a subscribe for the
room channel, and `del` issues an unsubscribe exactly when the room's member
set is empty after the removal — including when the room had no local
members to begin with. -/
theorem room_subscription_invariant (pfx nsp : String) (st : AState)
    (room id : String) (e : Option String) (h : Reachable pfx nsp st) :
    (roomChan pfx nsp room ∈ st.subs ↔
      ∃ m, lookupS st.rooms room = some m ∧ m ≠ [])
    ∧ (addOp pfx nsp st id room e).cmds = [BusCmd.sub (roomChan pfx nsp room)]
    ∧ (delOp pfx nsp st id room e).cmds
        = (if removeMem ((lookupS st.rooms room).getD []) id = []
            then [BusCmd.unsub (roomChan pfx nsp room)] else []) :=
  ⟨(reachable_businv pfx nsp st h).2.2 room, rfl, delOp_cmds pfx nsp st id room e⟩

/-- C9, witness for `room_subscription_invariant` at the initial state. -/
theorem room_subscription_invariant_witness :
    ((roomChan "socket.io" "/nsp" "r" ∈ (initState "socket.io" "/nsp").subs ↔
      ∃ m, lookupS (initState "socket.io" "/nsp").rooms "r" = some m ∧ m ≠ [])
    ∧ (addOp "socket.io" "/nsp" (initState "socket.io" "/nsp") "s" "r" none).cmds
        = [BusCmd.sub (roomChan "socket.io" "/nsp" "r")]
    ∧ (delOp "socket.io" "/nsp" (initState "socket.io" "/nsp") "s" "r" none).cmds
        = (if removeMem ((lookupS (initState "socket.io" "/nsp").rooms "r").getD []) "s" = []
            then [BusCmd.unsub (roomChan "socket.io" "/nsp" "r")] else [])) :=
  room_subscription_invariant "socket.io" "/nsp" (initState "socket.io" "/nsp")
    "r" "s" none Reachable.init

/-! ## The fleet clients query (C4) -/

@[simp] theorem qRun_nil (muid : String) (q : QState) : qRun muid q [] = q := rfl

theorem qRun_append (muid : String) (q : QState) (t1 t2 : List QEvent) :
    qRun muid q (t1 ++ t2) = qRun muid (qRun muid q t1) t2 :=
  List.foldl_append _ _ _ _

theorem qStep_timer (muid : String) (localSids : List String) (p : List QEvent)
    (q : QState) (h : UnfinQ muid localSids p q) :
    FinQ muid localSids (p ++ [QEvent.timerFire]) (qStep muid q QEvent.timerFire) := by
  obtain ⟨hc, hl, ht, ha⟩ := h
  refine ⟨?_, ?_, p.length, ?_, ?_⟩
  · simp [qStep, ht, finishQ]
  · simp [qStep, ht, finishQ]
  · simp
  · simp [qStep, ht, finishQ, hc, ha, List.take_left]

theorem qStep_unfin (muid : String) (localSids : List String) (p : List QEvent)
    (q : QState) (h : UnfinQ muid localSids p q) (e : QEvent) :
    UnfinQ muid localSids (p ++ [e]) (qStep muid q e)
    ∨ FinQ muid localSids (p ++ [e]) (qStep muid q e) := by
  obtain ⟨hc, hl, ht, ha⟩ := h
  cases e with
  | timerFire => exact Or.inr (qStep_timer muid localSids p q ⟨hc, hl, ht, ha⟩)
  | msg ch payload =>
      by_cases hmatch : respMatches muid ch
      · by_cases hz : q.remaining - 1 = 0
        · right
          refine ⟨?_, ?_, (p ++ [QEvent.msg ch payload]).length, le_refl _, ?_⟩
          · simp [qStep, hl, hmatch, hz, finishQ]
          · simp [qStep, hl, hmatch, hz, finishQ]
          · have htake : List.take (p.length + 1) (p ++ [QEvent.msg ch payload])
                = p ++ [QEvent.msg ch payload] :=
              List.take_of_length_le (by simp)
            simp [qStep, hl, hmatch, hz, finishQ, hc, ha, respPayload, htake,
              List.filterMap_append, List.flatten_append]
        · left
          refine ⟨?_, ?_, ?_, ?_⟩ <;>
            simp [qStep, hl, hmatch, hz, hc, ht, ha, respPayload,
              List.filterMap_append, List.flatten_append]
      · left
        refine ⟨?_, ?_, ?_, ?_⟩ <;>
          simp [qStep, hl, hmatch, hc, ht, ha, respPayload, List.filterMap_append]

theorem qStep_fin (muid : String) (localSids : List String) (p : List QEvent)
    (q : QState) (h : FinQ muid localSids p q) (e : QEvent) :
    FinQ muid localSids (p ++ [e]) (qStep muid q e) := by
  obtain ⟨hl, ht, n, hn, hcalls⟩ := h
  have hq : qStep muid q e = q := by
    cases e with
    | msg ch payload => simp [qStep, hl]
    | timerFire => simp [qStep, ht]
  rw [hq]
  refine ⟨hl, ht, n, le_trans hn (by simp), ?_⟩
  rw [List.take_append_of_le_length hn]
  exact hcalls

theorem qRun_preserves (muid : String) (localSids : List String) (tr : List QEvent) :
    ∀ (p : List QEvent) (q : QState),
      (UnfinQ muid localSids p q ∨ FinQ muid localSids p q) →
      (UnfinQ muid localSids (p ++ tr) (qRun muid q tr)
        ∨ FinQ muid localSids (p ++ tr) (qRun muid q tr)) := by
  induction tr with
  | nil =>
      intro p q h
      simpa using h
  | cons e rest ih =>
      intro p q h
      have h1 : UnfinQ muid localSids (p ++ [e]) (qStep muid q e)
          ∨ FinQ muid localSids (p ++ [e]) (qStep muid q e) := by
        rcases h with h | h
        · exact qStep_unfin muid localSids p q h e
        · exact Or.inr (qStep_fin muid localSids p q h e)
      have h2 := ih (p ++ [e]) (qStep muid q e) h1
      rw [show (p ++ [e]) ++ rest = p ++ e :: rest by simp] at h2
      exact h2

theorem qRun_fin (muid : String) (localSids : List String) (tr : List QEvent) :
    ∀ (p : List QEvent) (q : QState), FinQ muid localSids p q →
      FinQ muid localSids (p ++ tr) (qRun muid q tr) := by
  induction tr with
  | nil =>
      intro p q h
      simpa using h
  | cons e rest ih =>
      intro p q h
      have h1 := qStep_fin muid localSids p q h e
      have h2 := ih (p ++ [e]) (qStep muid q e) h1
      rw [show (p ++ [e]) ++ rest = p ++ e :: rest by simp] at h2
      exact h2

/-- C4: for every execution trace of one fleet clients query (the armed
timer appears in the trace as `timerFire`, a no-op if the query completed
and cleared it first), the callback is invoked exactly once, with the local
sid list followed by the matching peer responses accepted before completion,
appended in arrival order with duplicates preserved; the timer is armed for
`timeout * (S - 1)` where `S` is the clients-request subscriber count. -/
theorem clients_fleet_exactly_once (muid : String) (timeout subCount : Nat)
    (localSids : List String) (tr : List QEvent)
    (h : QEvent.timerFire ∈ tr) :
    (qInit timeout subCount localSids).armedDelay
        = (timeout : Int) * ((subCount : Int) - 1)
    ∧ (qRun muid (qInit timeout subCount localSids) tr).calls.length = 1
    ∧ ∃ n, n ≤ tr.length ∧
        (qRun muid (qInit timeout subCount localSids) tr).calls
          = [localSids ++ ((tr.take n).filterMap (respPayload muid)).flatten] := by
  obtain ⟨t1, t2, htr⟩ := List.append_of_mem h
  subst htr
  have hinit : UnfinQ muid localSids [] (qInit timeout subCount localSids) := by
    simp [UnfinQ, qInit]
  have h1 := qRun_preserves muid localSids t1 [] _ (Or.inl hinit)
  rw [List.nil_append] at h1
  have h2 : FinQ muid localSids (t1 ++ [QEvent.timerFire])
      (qStep muid (qRun muid (qInit timeout subCount localSids) t1) QEvent.timerFire) := by
    rcases h1 with h1 | h1
    · exact qStep_timer muid localSids t1 _ h1
    · exact qStep_fin muid localSids t1 _ h1 QEvent.timerFire
  have h3 := qRun_fin muid localSids t2 (t1 ++ [QEvent.timerFire]) _ h2
  have hcomp : qRun muid (qInit timeout subCount localSids) (t1 ++ QEvent.timerFire :: t2)
      = qRun muid (qStep muid (qRun muid (qInit timeout subCount localSids) t1)
          QEvent.timerFire) t2 := by
    rw [qRun_append]
    rfl
  rw [show (t1 ++ [QEvent.timerFire]) ++ t2 = t1 ++ QEvent.timerFire :: t2 by simp] at h3
  obtain ⟨hl, ht, n, hn, hcalls⟩ := h3
  refine ⟨rfl, ?_, n, hn, ?_⟩
  · rw [hcomp, hcalls]
    rfl
  · rw [hcomp, hcalls]

/-- C4, witness for `clients_fleet_exactly_once`: a two-node query that
receives one matching peer response and then times out. -/
theorem clients_fleet_exactly_once_witness :
    (qInit 50 2 ["a1"]).armedDelay = (50 : Int) * ((2 : Int) - 1)
    ∧ (qRun "m1" (qInit 50 2 ["a1"])
        [QEvent.msg "socket.io#m1#clientresponse" ["b1"], QEvent.timerFire]).calls.length = 1
    ∧ ∃ n, n ≤ ([QEvent.msg "socket.io#m1#clientresponse" ["b1"],
          QEvent.timerFire] : List QEvent).length ∧
        (qRun "m1" (qInit 50 2 ["a1"])
          [QEvent.msg "socket.io#m1#clientresponse" ["b1"], QEvent.timerFire]).calls
          = [["a1"] ++ ((([QEvent.msg "socket.io#m1#clientresponse" ["b1"],
              QEvent.timerFire] : List QEvent).take n).filterMap
                (respPayload "m1")).flatten] :=
  clients_fleet_exactly_once "m1" 50 2 ["a1"]
    [QEvent.msg "socket.io#m1#clientresponse" ["b1"], QEvent.timerFire] (by decide)

end SocketIORedis
